import Mathlib

/-!
Verification of the confidence-interval computation of the notebook
`src/index.ipynb` (dsc-intervals-with-t-distribution).

The notebook computes, for a sample of reals and a confidence level:
  `x_bar = np.mean(sample)`,
  `s = np.std(sample, ddof = 1)`,
  `se = s / np.sqrt(len(sample))`,
  `stats.t.interval(confidence, df = len(sample) - 1, loc = x_bar, scale = se)`.

We embed the arithmetic over the real numbers.  The Student-t inverse CDF
(scipy's `t.ppf`) has no elementary closed form and lives in scipy, outside
this repository; every definition therefore takes an abstract quantile
function `tq : ℕ → ℝ → ℝ` (degrees of freedom, cumulative probability) as a
parameter, and theorems that need analytic facts about the true t quantile
(symmetry, strict monotonicity, reference-table values) take them as
hypotheses, exactly the facts the spec itself tells implementers to verify.
`stats.t.interval(confidence, df, loc, scale)` is modelled by its documented
behaviour: `(loc + scale * ppf((1-confidence)/2), loc + scale * ppf((1+confidence)/2))`.

A second model (`FloatVal`) adds IEEE-style `nan` and signed infinities on
top of ℝ so that the behaviour of the code on out-of-contract inputs (where
numpy/scipy produce `nan` or `±inf` rather than raising) can be stated.
-/

namespace TDistCI

noncomputable section
open Classical

/-- Arithmetic mean of a list of reals; embeds `np.mean(sample)` (notebook cell 8). -/
def mean (xs : List ℝ) : ℝ := xs.sum / xs.length

/-- Sum of squared deviations from the mean: the summation inside numpy's
standard deviation. -/
def sqDevSum (xs : List ℝ) : ℝ := (xs.map (fun x => (x - mean xs) ^ 2)).sum

/-- Bessel-corrected sample standard deviation; embeds `np.std(sample, ddof = 1)`
(notebook cell 8): the squared deviations are summed and divided by `n - ddof`. -/
def sampleStd (xs : List ℝ) : ℝ := Real.sqrt (sqDevSum xs / ((xs.length : ℝ) - 1))

/-- Standard error of the mean; embeds `se = s / np.sqrt(len(sample))` (notebook cell 8). -/
def stdErr (xs : List ℝ) : ℝ := sampleStd xs / Real.sqrt (xs.length : ℝ)

/-- Model of `scipy.stats.t.interval(confidence, df, loc, scale)` over ℝ, with the
standard t inverse CDF abstracted as `tq`: scipy returns
`(loc + scale * ppf((1-confidence)/2), loc + scale * ppf((1+confidence)/2))`. -/
def tIntervalSci (tq : ℕ → ℝ → ℝ) (conf : ℝ) (df : ℕ) (loc scale : ℝ) : ℝ × ℝ :=
  (loc + scale * tq df ((1 - conf) / 2), loc + scale * tq df ((1 + conf) / 2))

/-- The whole notebook computation (cells 8 and 11): sample mean, Bessel-corrected
standard deviation, standard error, then `stats.t.interval` with
`df = len(sample) - 1`, `loc = x_bar`, `scale = se`. -/
def notebookCI (tq : ℕ → ℝ → ℝ) (xs : List ℝ) (conf : ℝ) : ℝ × ℝ :=
  tIntervalSci tq conf (xs.length - 1) (mean xs) (stdErr xs)

/-- Modelled from the spec: the nine computation steps of section 4.1
(`mean`, `variance` with Bessel's correction, `stddev`, `stderr`, `df`,
`alpha`, `tCritical` at cumulative probability `1 - alpha/2`, `marginOfError`,
`lower = mean - marginOfError`, `upper = mean + marginOfError`), written
independently of the notebook's formulation for the refinement claim C1. -/
def specCI (tq : ℕ → ℝ → ℝ) (xs : List ℝ) (conf : ℝ) : ℝ × ℝ :=
  let n : ℕ := xs.length
  let mean : ℝ := (1 / (n : ℝ)) * xs.sum
  let variance : ℝ := (1 / ((n : ℝ) - 1)) * (xs.map (fun x => (x - mean) ^ 2)).sum
  let stddev : ℝ := Real.sqrt variance
  let stderr : ℝ := stddev / Real.sqrt (n : ℝ)
  let df : ℕ := n - 1
  let alpha : ℝ := 1 - conf
  let tCritical : ℝ := tq df (1 - alpha / 2)
  let marginOfError : ℝ := tCritical * stderr
  (mean - marginOfError, mean + marginOfError)

/-- The fixed cholesterol sample of notebook cell 6 (`sample_chol_levels`). -/
def sampleCholLevels : List ℝ :=
  [66.0, 36.0, 73.0, 48.0, 81.0, 69.0, 75.0, 81.0, 73.0, 69.0,
   101.0, 70.0, 50.0, 42.0, 36.0, 71.0, 65.0, 43.0, 76.0, 24.0]

/- Basic facts about the statistics. -/

theorem mean_eq_of_const {xs : List ℝ} {v : ℝ} (hne : xs ≠ []) (hall : ∀ x ∈ xs, x = v) :
    mean xs = v := by
  have hlen : (0 : ℝ) < xs.length := by
    have : 0 < xs.length := List.length_pos.mpr hne
    exact_mod_cast this
  have hsum : xs.sum = xs.length • v := List.sum_eq_card_nsmul xs v hall
  rw [mean, hsum, nsmul_eq_mul, mul_comm, mul_div_assoc, div_self (ne_of_gt hlen), mul_one]

theorem sqDevSum_nonneg (xs : List ℝ) : 0 ≤ sqDevSum xs := by
  apply List.sum_nonneg
  intro a ha
  obtain ⟨x, _, rfl⟩ := List.mem_map.mp ha
  positivity

theorem sqDevSum_eq_zero_of_const {xs : List ℝ} {v : ℝ} (hne : xs ≠ [])
    (hall : ∀ x ∈ xs, x = v) : sqDevSum xs = 0 := by
  rw [sqDevSum]
  apply List.sum_eq_zero
  intro a ha
  obtain ⟨x, hx, rfl⟩ := List.mem_map.mp ha
  rw [hall x hx, mean_eq_of_const hne hall]
  ring

theorem sampleStd_nonneg (xs : List ℝ) : 0 ≤ sampleStd xs := Real.sqrt_nonneg _

theorem stdErr_nonneg (xs : List ℝ) : 0 ≤ stdErr xs :=
  div_nonneg (sampleStd_nonneg xs) (Real.sqrt_nonneg _)

theorem stdErr_eq_zero_of_const {xs : List ℝ} {v : ℝ} (hne : xs ≠ [])
    (hall : ∀ x ∈ xs, x = v) : stdErr xs = 0 := by
  rw [stdErr, sampleStd, sqDevSum_eq_zero_of_const hne hall]
  simp

/-- Claim C5 body, kept as a reusable lemma: on a constant sample the notebook
returns the degenerate interval, for every quantile function. -/
theorem notebookCI_const {xs : List ℝ} {v : ℝ} (tq : ℕ → ℝ → ℝ) (conf : ℝ)
    (hne : xs ≠ []) (hall : ∀ x ∈ xs, x = v) :
    notebookCI tq xs conf = (v, v) := by
  rw [notebookCI, tIntervalSci, stdErr_eq_zero_of_const hne hall,
    mean_eq_of_const hne hall]
  norm_num

/-- C1: for every sample of n ≥ 2 reals and confidence level in (0,1), the
notebook computation produces exactly the interval the spec's section 4.1
prescribes, `(mean - tCritical * stderr, mean + tCritical * stderr)` with
Bessel-corrected standard deviation and `tCritical = tq (n-1) (1 - alpha/2)`,
provided the quantile function has the t-distribution's symmetry
`tq df (1 - p) = - tq df p`. -/
theorem c1_notebook_refines_spec (tq : ℕ → ℝ → ℝ) (xs : List ℝ) (conf : ℝ)
    (hn : 2 ≤ xs.length) (hc0 : 0 < conf) (hc1 : conf < 1)
    (hsym : ∀ df p, tq df (1 - p) = - tq df p) :
    notebookCI tq xs conf = specCI tq xs conf := by
  have e1 : (1 : ℝ) - (1 - conf) / 2 = (1 + conf) / 2 := by ring
  have e2 : ((1 : ℝ) - conf) / 2 = 1 - (1 + conf) / 2 := by ring
  have hmean : (1 / (xs.length : ℝ)) * xs.sum = mean xs := by
    rw [mean, one_div, inv_mul_eq_div]
  rw [notebookCI, tIntervalSci, stdErr, sampleStd]
  simp only [specCI, hmean]
  have hvar : (1 / ((xs.length : ℝ) - 1)) * (xs.map (fun x => (x - mean xs) ^ 2)).sum
      = sqDevSum xs / ((xs.length : ℝ) - 1) := by
    rw [sqDevSum, one_div, inv_mul_eq_div]
  rw [hvar, e1, e2, hsym]
  simp only [Prod.mk.injEq]
  constructor <;> ring

/-- Witness for C1 at the sample `[1, 2]`, confidence one half, with the odd
quantile function `fun df p => 2 * p - 1`. -/
theorem c1_witness :
    notebookCI (fun _ p => 2 * p - 1) [1, 2] (1 / 2)
      = specCI (fun _ p => 2 * p - 1) [1, 2] (1 / 2) :=
  c1_notebook_refines_spec (fun _ p => 2 * p - 1) [1, 2] (1 / 2)
    (by norm_num) (by norm_num) (by norm_num) (fun df p => by ring)

/-- C5: every sample of n ≥ 2 identical values v yields the degenerate
interval (v, v), for every confidence level in (0,1). -/
theorem c5_constant_sample (tq : ℕ → ℝ → ℝ) (xs : List ℝ) (v conf : ℝ)
    (hn : 2 ≤ xs.length) (hall : ∀ x ∈ xs, x = v)
    (hc0 : 0 < conf) (hc1 : conf < 1) :
    notebookCI tq xs conf = (v, v) := by
  have hne : xs ≠ [] := by
    intro h
    rw [h] at hn
    simp at hn
  exact notebookCI_const tq conf hne hall

/-- Witness for C5: the spec's concrete scenario 2, sample `[5, 5, 5, 5]` at
confidence 0.95, yields (5, 5). -/
theorem c5_witness :
    notebookCI (fun _ _ => 0) [5, 5, 5, 5] 0.95 = (5, 5) :=
  c5_constant_sample (fun _ _ => 0) [5, 5, 5, 5] 5 0.95
    (by norm_num) (by intro x hx; simpa using hx)
    (by norm_num) (by norm_num)

/- Zero standard error characterises constant samples. -/

theorem sum_sq_eq_zero_iff (xs : List ℝ) (m : ℝ) :
    (xs.map (fun x => (x - m) ^ 2)).sum = 0 ↔ ∀ x ∈ xs, x = m := by
  induction xs with
  | nil => simp
  | cons y ys ih =>
    simp only [List.map_cons, List.sum_cons, List.mem_cons]
    constructor
    · intro h
      have h2 : 0 ≤ (ys.map (fun x => (x - m) ^ 2)).sum := by
        apply List.sum_nonneg
        intro a ha
        obtain ⟨x, _, rfl⟩ := List.mem_map.mp ha
        positivity
      have h1 : 0 ≤ (y - m) ^ 2 := sq_nonneg _
      have hy : (y - m) ^ 2 = 0 := by linarith
      have hy' : y = m := by
        have := pow_eq_zero_iff (n := 2) (by norm_num) |>.mp hy
        linarith [this]
      have htail : ∀ x ∈ ys, x = m := ih.mp (by linarith)
      rintro x (rfl | hx)
      · exact hy'
      · exact htail x hx
    · intro h
      have hy : y = m := h y (Or.inl rfl)
      have htail : (ys.map (fun x => (x - m) ^ 2)).sum = 0 :=
        ih.mpr fun x hx => h x (Or.inr hx)
      rw [hy, htail]
      ring

theorem sqDevSum_eq_zero_iff (xs : List ℝ) :
    sqDevSum xs = 0 ↔ ∀ x ∈ xs, x = mean xs := sum_sq_eq_zero_iff xs (mean xs)

theorem stdErr_eq_zero_iff {xs : List ℝ} (hn : 2 ≤ xs.length) :
    stdErr xs = 0 ↔ ∀ x ∈ xs, x = mean xs := by
  have hlen : (0 : ℝ) < (xs.length : ℝ) := by
    have : 0 < xs.length := lt_of_lt_of_le (by norm_num) hn
    exact_mod_cast this
  have hn1 : (0 : ℝ) < (xs.length : ℝ) - 1 := by
    have : (2 : ℝ) ≤ (xs.length : ℝ) := by exact_mod_cast hn
    linarith
  have hsq : Real.sqrt (xs.length : ℝ) ≠ 0 := ne_of_gt (Real.sqrt_pos.mpr hlen)
  rw [stdErr, div_eq_zero_iff]
  constructor
  · rintro (h | h)
    · rw [sampleStd, Real.sqrt_eq_zero'] at h
      have hq : 0 ≤ sqDevSum xs / ((xs.length : ℝ) - 1) :=
        div_nonneg (sqDevSum_nonneg xs) (le_of_lt hn1)
      have hz : sqDevSum xs / ((xs.length : ℝ) - 1) = 0 := le_antisymm h hq
      rcases div_eq_zero_iff.mp hz with h' | h'
      · exact (sqDevSum_eq_zero_iff xs).mp h'
      · exact absurd h' (ne_of_gt hn1)
    · exact absurd h hsq
  · intro h
    left
    rw [sampleStd, (sqDevSum_eq_zero_iff xs).mpr h]
    simp

/-- C4: for every valid input, the returned pair satisfies lower ≤ upper, and
the endpoints are equal exactly when all sample values are identical (the
degenerate stderr = 0 case), provided the quantile function is strictly
increasing on (0,1) as the t inverse CDF is. -/
theorem c4_lower_le_upper (tq : ℕ → ℝ → ℝ) (xs : List ℝ) (conf : ℝ)
    (hn : 2 ≤ xs.length) (hc0 : 0 < conf) (hc1 : conf < 1)
    (hmono : ∀ df p q, 0 < p → p < q → q < 1 → tq df p < tq df q) :
    (notebookCI tq xs conf).1 ≤ (notebookCI tq xs conf).2 ∧
    ((notebookCI tq xs conf).1 = (notebookCI tq xs conf).2 ↔
      ∀ a ∈ xs, ∀ b ∈ xs, a = b) := by
  have ht : tq (xs.length - 1) ((1 - conf) / 2) < tq (xs.length - 1) ((1 + conf) / 2) :=
    hmono _ _ _ (by linarith) (by linarith) (by linarith)
  have hse : 0 ≤ stdErr xs := stdErr_nonneg xs
  have hne : xs ≠ [] := by
    intro h
    rw [h] at hn
    simp at hn
  simp only [notebookCI, tIntervalSci]
  constructor
  · have := mul_le_mul_of_nonneg_left (le_of_lt ht) hse
    linarith
  · constructor
    · intro h
      have hse0 : stdErr xs = 0 := by
        by_contra hne0
        have hpos : 0 < stdErr xs := lt_of_le_of_ne hse (Ne.symm hne0)
        have := mul_lt_mul_of_pos_left ht hpos
        linarith
      have hall := (stdErr_eq_zero_iff hn).mp hse0
      intro a ha b hb
      rw [hall a ha, hall b hb]
    · intro h
      obtain ⟨y, ys, rfl⟩ := List.exists_cons_of_ne_nil hne
      have hally : ∀ x ∈ y :: ys, x = y := fun x hx => h x hx y (List.mem_cons_self y ys)
      have hse0 : stdErr (y :: ys) = 0 := stdErr_eq_zero_of_const hne hally
      rw [hse0]
      ring

/-- Witness for C4 at the sample `[1, 2]`, confidence one half, with the
strictly increasing quantile function `fun df p => p`. -/
theorem c4_witness :
    (notebookCI (fun _ p => p) [1, 2] (1 / 2)).1 ≤ (notebookCI (fun _ p => p) [1, 2] (1 / 2)).2 ∧
    ((notebookCI (fun _ p => p) [1, 2] (1 / 2)).1 = (notebookCI (fun _ p => p) [1, 2] (1 / 2)).2 ↔
      ∀ a ∈ ([1, 2] : List ℝ), ∀ b ∈ ([1, 2] : List ℝ), a = b) :=
  c4_lower_le_upper (fun _ p => p) [1, 2] (1 / 2) (by norm_num) (by norm_num) (by norm_num)
    (fun df p q h1 h2 h3 => h2)

/-- C6: for a fixed sample with positive standard error, the interval width is
strictly increasing in the confidence level, provided the quantile function is
strictly increasing on (0,1) as the t inverse CDF is. -/
theorem c6_width_strict_mono (tq : ℕ → ℝ → ℝ) (xs : List ℝ) (c1 c2 : ℝ)
    (hn : 2 ≤ xs.length) (hse : 0 < stdErr xs)
    (h0 : 0 < c1) (h12 : c1 < c2) (h1 : c2 < 1)
    (hmono : ∀ df p q, 0 < p → p < q → q < 1 → tq df p < tq df q) :
    (notebookCI tq xs c1).2 - (notebookCI tq xs c1).1
      < (notebookCI tq xs c2).2 - (notebookCI tq xs c2).1 := by
  have hhi : tq (xs.length - 1) ((1 + c1) / 2) < tq (xs.length - 1) ((1 + c2) / 2) :=
    hmono _ _ _ (by linarith) (by linarith) (by linarith)
  have hlo : tq (xs.length - 1) ((1 - c2) / 2) < tq (xs.length - 1) ((1 - c1) / 2) :=
    hmono _ _ _ (by linarith) (by linarith) (by linarith)
  simp only [notebookCI, tIntervalSci]
  have hAB : tq (xs.length - 1) ((1 + c1) / 2) - tq (xs.length - 1) ((1 - c1) / 2)
      < tq (xs.length - 1) ((1 + c2) / 2) - tq (xs.length - 1) ((1 - c2) / 2) := by
    linarith
  have := mul_lt_mul_of_pos_left hAB hse
  linarith

/-- Witness for C6: the sample `[1, 3]` (standard error 1) with confidence
levels one half and three quarters, quantile function `fun df p => p`. -/
theorem c6_witness :
    (notebookCI (fun _ p => p) [1, 3] (1 / 2)).2 - (notebookCI (fun _ p => p) [1, 3] (1 / 2)).1
      < (notebookCI (fun _ p => p) [1, 3] (3 / 4)).2
        - (notebookCI (fun _ p => p) [1, 3] (3 / 4)).1 :=
  c6_width_strict_mono (fun _ p => p) [1, 3] (1 / 2) (3 / 4) (by norm_num)
    (by
      have h2 : (0 : ℝ) < Real.sqrt 2 := Real.sqrt_pos.mpr (by norm_num)
      have : stdErr [1, 3] = Real.sqrt 2 / Real.sqrt 2 := by
        norm_num [stdErr, sampleStd, sqDevSum, mean]
      rw [this, div_self (ne_of_gt h2)]
      norm_num)
    (by norm_num) (by norm_num) (by norm_num) (fun df p q h1 h2 h3 => h2)

/-- C7: the computed statistics and interval are invariant under permutation
of the sample. -/
theorem c7_perm_invariant (tq : ℕ → ℝ → ℝ) (xs ys : List ℝ) (conf : ℝ)
    (hperm : xs.Perm ys) :
    mean xs = mean ys ∧ sampleStd xs = sampleStd ys ∧ stdErr xs = stdErr ys ∧
    notebookCI tq xs conf = notebookCI tq ys conf := by
  have hlen : xs.length = ys.length := hperm.length_eq
  have hmean : mean xs = mean ys := by rw [mean, mean, hperm.sum_eq, hlen]
  have hsq : sqDevSum xs = sqDevSum ys := by
    rw [sqDevSum, sqDevSum, hmean]
    exact (hperm.map (fun x => (x - mean ys) ^ 2)).sum_eq
  have hstd : sampleStd xs = sampleStd ys := by rw [sampleStd, sampleStd, hsq, hlen]
  have hse : stdErr xs = stdErr ys := by rw [stdErr, stdErr, hstd, hlen]
  exact ⟨hmean, hstd, hse, by rw [notebookCI, notebookCI, hmean, hse, hlen]⟩

/-- Witness for C7 at the swap permutation of `[1, 2]`. -/
theorem c7_witness :
    mean [(1 : ℝ), 2] = mean [2, 1] ∧ sampleStd [(1 : ℝ), 2] = sampleStd [2, 1] ∧
    stdErr [(1 : ℝ), 2] = stdErr [2, 1] ∧
    notebookCI (fun _ _ => 0) [1, 2] 0.95 = notebookCI (fun _ _ => 0) [2, 1] 0.95 :=
  c7_perm_invariant (fun _ _ => 0) [1, 2] [2, 1] 0.95 (List.Perm.swap 2 1 [])

/-- C8: the computation is a pure, deterministic function of the sample, the
confidence level and the quantile routine alone: the embedding is a total
function with no state, so syntactically distinct but equal inputs give
identical intervals, and no invocation can influence another. -/
theorem c8_deterministic (tq : ℕ → ℝ → ℝ) (xs ys : List ℝ) (c d : ℝ)
    (hxy : xs = ys) (hcd : c = d) :
    notebookCI tq xs c = notebookCI tq ys d := by rw [hxy, hcd]

/-- Witness for C8 at the sample `[1, 2]` and confidence 0.95. -/
theorem c8_witness :
    notebookCI (fun _ _ => 0) [1, 2] 0.95 = notebookCI (fun _ _ => 0) [1, 2] 0.95 :=
  c8_deterministic (fun _ _ => 0) [1, 2] [1, 2] 0.95 0.95 rfl rfl

/- Translation equivariance (claim C10). -/

theorem sum_map_add_const (xs : List ℝ) (c : ℝ) :
    (xs.map (fun x => x + c)).sum = xs.sum + xs.length * c := by
  induction xs with
  | nil => simp
  | cons y ys ih =>
    simp only [List.map_cons, List.sum_cons, List.length_cons, ih]
    push_cast
    ring

theorem mean_map_add_const {xs : List ℝ} (c : ℝ) (hne : xs ≠ []) :
    mean (xs.map (fun x => x + c)) = mean xs + c := by
  have hlen : (0 : ℝ) < (xs.length : ℝ) := by
    have : 0 < xs.length := List.length_pos.mpr hne
    exact_mod_cast this
  rw [mean, mean, List.length_map, sum_map_add_const]
  field_simp
  ring

theorem sqDevSum_map_add_const {xs : List ℝ} (c : ℝ) (hne : xs ≠ []) :
    sqDevSum (xs.map (fun x => x + c)) = sqDevSum xs := by
  rw [sqDevSum, sqDevSum, mean_map_add_const c hne, List.map_map]
  have hfun : ((fun x => (x - (mean xs + c)) ^ 2) ∘ fun x => x + c)
      = fun x : ℝ => (x - mean xs) ^ 2 := by
    funext x
    simp only [Function.comp_apply]
    ring
  rw [hfun]

/-- C10: adding a constant c to every sample element shifts both interval
endpoints by exactly c; the standard deviation, standard error, degrees of
freedom and quantile argument are unchanged. -/
theorem c10_translation_equivariant (tq : ℕ → ℝ → ℝ) (xs : List ℝ) (conf c : ℝ)
    (hn : 2 ≤ xs.length) (hc0 : 0 < conf) (hc1 : conf < 1) :
    sampleStd (xs.map (fun x => x + c)) = sampleStd xs ∧
    stdErr (xs.map (fun x => x + c)) = stdErr xs ∧
    notebookCI tq (xs.map (fun x => x + c)) conf
      = ((notebookCI tq xs conf).1 + c, (notebookCI tq xs conf).2 + c) := by
  have hne : xs ≠ [] := by
    intro h
    rw [h] at hn
    simp at hn
  have hstd : sampleStd (xs.map (fun x => x + c)) = sampleStd xs := by
    rw [sampleStd, sampleStd, sqDevSum_map_add_const c hne, List.length_map]
  have hse : stdErr (xs.map (fun x => x + c)) = stdErr xs := by
    rw [stdErr, stdErr, hstd, List.length_map]
  refine ⟨hstd, hse, ?_⟩
  simp only [notebookCI, tIntervalSci, List.length_map, hse, mean_map_add_const c hne]
  simp only [Prod.mk.injEq]
  constructor <;> ring

/-- Witness for C10 at the sample `[1, 2]`, confidence 0.95, shift 10. -/
theorem c10_witness :
    sampleStd ([(1 : ℝ), 2].map (fun x => x + 10)) = sampleStd [1, 2] ∧
    stdErr ([(1 : ℝ), 2].map (fun x => x + 10)) = stdErr [1, 2] ∧
    notebookCI (fun _ _ => 0) ([(1 : ℝ), 2].map (fun x => x + 10)) 0.95
      = ((notebookCI (fun _ _ => 0) [1, 2] 0.95).1 + 10,
         (notebookCI (fun _ _ => 0) [1, 2] 0.95).2 + 10) :=
  c10_translation_equivariant (fun _ _ => 0) [1, 2] 0.95 10 (by norm_num)
    (by norm_num) (by norm_num)

/- A second model of the same computation that tracks IEEE-style non-finite
values, so that the code's behaviour on out-of-contract inputs (where numpy
and scipy produce nan or signed infinities instead of raising an error) can be
stated.  Finite arithmetic is idealised as exact; the propagation rules for
nan and the infinities follow IEEE 754 as numpy/scipy implement them. -/

/-- Extended value: a finite real, not-a-number, or a signed infinity. -/
inductive FloatVal where
  | fin (x : ℝ)
  | nan
  | pinf
  | ninf

namespace FloatVal

/-- IEEE addition on extended values. -/
def add : FloatVal → FloatVal → FloatVal
  | fin a, fin b => fin (a + b)
  | fin _, nan => nan
  | fin _, pinf => pinf
  | fin _, ninf => ninf
  | nan, _ => nan
  | pinf, fin _ => pinf
  | pinf, nan => nan
  | pinf, pinf => pinf
  | pinf, ninf => nan
  | ninf, fin _ => ninf
  | ninf, nan => nan
  | ninf, pinf => nan
  | ninf, ninf => ninf

/-- IEEE multiplication on extended values: sign rules for the infinities,
zero times an infinity is nan. -/
def mul : FloatVal → FloatVal → FloatVal
  | fin a, fin b => fin (a * b)
  | fin a, pinf => if 0 < a then pinf else if a < 0 then ninf else nan
  | fin a, ninf => if 0 < a then ninf else if a < 0 then pinf else nan
  | fin _, nan => nan
  | nan, _ => nan
  | pinf, fin b => if 0 < b then pinf else if b < 0 then ninf else nan
  | pinf, pinf => pinf
  | pinf, ninf => ninf
  | pinf, nan => nan
  | ninf, fin b => if 0 < b then ninf else if b < 0 then pinf else nan
  | ninf, pinf => ninf
  | ninf, ninf => pinf
  | ninf, nan => nan

/-- IEEE division on extended values: 0/0 is nan, nonzero/0 is a signed
infinity, finite/infinite is 0, infinite/infinite is nan. -/
def div : FloatVal → FloatVal → FloatVal
  | fin a, fin b =>
      if b = 0 then (if a = 0 then nan else if 0 < a then pinf else ninf)
      else fin (a / b)
  | fin _, pinf => fin 0
  | fin _, ninf => fin 0
  | fin _, nan => nan
  | nan, _ => nan
  | pinf, fin b => if 0 ≤ b then pinf else ninf
  | pinf, pinf => nan
  | pinf, ninf => nan
  | pinf, nan => nan
  | ninf, fin b => if 0 ≤ b then ninf else pinf
  | ninf, pinf => nan
  | ninf, ninf => nan
  | ninf, nan => nan

/-- IEEE square root on extended values: a negative argument gives nan. -/
def sqrtv : FloatVal → FloatVal
  | fin a => if a < 0 then nan else fin (Real.sqrt a)
  | nan => nan
  | pinf => pinf
  | ninf => nan

theorem div_fin_fin_of_ne {a b : ℝ} (hb : b ≠ 0) : div (fin a) (fin b) = fin (a / b) := by
  rw [div, if_neg hb]

theorem div_zero_zero : div (fin 0) (fin 0) = nan := by
  rw [div, if_pos rfl, if_pos rfl]

theorem mul_fin_pinf_of_pos {a : ℝ} (ha : 0 < a) : mul (fin a) pinf = pinf := by
  rw [mul, if_pos ha]

theorem mul_fin_ninf_of_pos {a : ℝ} (ha : 0 < a) : mul (fin a) ninf = ninf := by
  rw [mul, if_pos ha]

theorem sqrtv_fin_of_nonneg {a : ℝ} (ha : 0 ≤ a) : sqrtv (fin a) = fin (Real.sqrt a) := by
  rw [sqrtv, if_neg (not_lt.mpr ha)]

theorem add_nan (y : FloatVal) : add y nan = nan := by cases y <;> rfl

theorem mul_nan (y : FloatVal) : mul y nan = nan := by cases y <;> rfl

end FloatVal

/-- Float-model mean: `np.mean` divides the sum by the length; 0/0 for the
empty sample gives nan. -/
def meanF (xs : List ℝ) : FloatVal :=
  FloatVal.div (.fin xs.sum) (.fin (xs.length : ℝ))

/-- Float-model Bessel-corrected variance, the radicand inside
`np.std(xs, ddof = 1)`: the sum of squared deviations divided by n - 1, a 0/0
division (hence nan) for a one-element sample. -/
def varF (xs : List ℝ) : FloatVal :=
  FloatVal.div (.fin (sqDevSum xs)) (.fin ((xs.length : ℝ) - 1))

/-- Float-model sample standard deviation `np.std(xs, ddof = 1)`. -/
def sampleStdF (xs : List ℝ) : FloatVal := FloatVal.sqrtv (varF xs)

/-- Float-model standard error `s / np.sqrt(len(xs))`. -/
def stdErrF (xs : List ℝ) : FloatVal :=
  FloatVal.div (sampleStdF xs) (FloatVal.sqrtv (.fin (xs.length : ℝ)))

/-- Model of scipy's `t.ppf` on extended values: nan for zero degrees of
freedom (scipy rejects df ≤ 0) and for probabilities outside [0, 1]; the
infinite quantiles at p = 0 and p = 1; the abstract finite quantile between. -/
def tppfF (tq : ℕ → ℝ → ℝ) (df : ℕ) (p : ℝ) : FloatVal :=
  if df = 0 then .nan
  else if p < 0 ∨ 1 < p then .nan
  else if p = 0 then .ninf
  else if p = 1 then .pinf
  else .fin (tq df p)

/-- Float model of the whole notebook computation: `stats.t.interval` applied
to the float-model mean and standard error at `df = len(xs) - 1`. -/
def notebookCIF (tq : ℕ → ℝ → ℝ) (xs : List ℝ) (conf : ℝ) : FloatVal × FloatVal :=
  (FloatVal.add (meanF xs)
    (FloatVal.mul (stdErrF xs) (tppfF tq (xs.length - 1) ((1 - conf) / 2))),
   FloatVal.add (meanF xs)
    (FloatVal.mul (stdErrF xs) (tppfF tq (xs.length - 1) ((1 + conf) / 2))))

/-- On every one-element sample the float model returns (nan, nan): the
Bessel-corrected variance is the 0/0 division and nan propagates to both
endpoints. -/
theorem notebookCIF_singleton (tq : ℕ → ℝ → ℝ) (x conf : ℝ) :
    notebookCIF tq [x] conf = (.nan, .nan) := by
  have hsq : sqDevSum [x] = 0 := by
    simp [sqDevSum, mean]
  have hvar : varF [x] = .nan := by
    rw [varF, hsq]
    norm_num [FloatVal.div_zero_zero]
  have hse : stdErrF [x] = .nan := by
    rw [stdErrF, sampleStdF, hvar]
    rw [show FloatVal.sqrtv .nan = .nan from rfl]
    rw [FloatVal.sqrtv_fin_of_nonneg (by norm_num : (0 : ℝ) ≤ (([x] : List ℝ).length : ℝ))]
    rfl
  have htp : ∀ p : ℝ, tppfF tq (([x] : List ℝ).length - 1) p = .nan := by
    intro p
    rw [tppfF, if_pos (by rfl)]
  rw [notebookCIF, hse, htp, htp, FloatVal.mul_nan, FloatVal.add_nan]

/-- C2 counterexample: on the spec's own invalid-input scenario, the
one-element sample [7.0] at confidence level 0.95, the computation does not
fail with an InvalidInput error: it runs the formula and returns the value
pair (nan, nan). -/
theorem c2_counterexample :
    notebookCIF (fun _ _ => 0) [7] 0.95 = (.nan, .nan) :=
  notebookCIF_singleton (fun _ _ => 0) 7 0.95

/-- C2 amended: the code performs no input validation, so a precondition
violation is not rejected and no InvalidInput error is reported; the formula
runs anyway and produces a value pair, which for every one-element sample and
every confidence level is (nan, nan). -/
theorem c2_no_input_validation (tq : ℕ → ℝ → ℝ) (x conf : ℝ) :
    notebookCIF tq [x] conf = (.nan, .nan) :=
  notebookCIF_singleton tq x conf

/- Concrete facts about the notebook's fixed cholesterol sample. -/

theorem sampleCholLevels_length : sampleCholLevels.length = 20 := rfl

theorem sampleCholLevels_sum : sampleCholLevels.sum = 1249 := by
  norm_num [sampleCholLevels]

theorem mean_sampleCholLevels : mean sampleCholLevels = 62.45 := by
  rw [mean, sampleCholLevels_sum, sampleCholLevels_length]
  norm_num

theorem sqDevSum_sampleCholLevels : sqDevSum sampleCholLevels = 7010.95 := by
  rw [sqDevSum]
  simp only [mean_sampleCholLevels]
  rw [sampleCholLevels]
  norm_num

/-- For a sample of at least two elements the float-model mean is finite. -/
theorem meanF_eq_fin {xs : List ℝ} (hn : 2 ≤ xs.length) :
    meanF xs = .fin (mean xs) := by
  have hlen : ((xs.length : ℝ)) ≠ 0 := by
    have : (2 : ℝ) ≤ (xs.length : ℝ) := by exact_mod_cast hn
    linarith
  rw [meanF, FloatVal.div_fin_fin_of_ne hlen, mean]

/-- For a sample of at least two elements the float-model standard error is the
finite real-model standard error. -/
theorem stdErrF_eq_fin {xs : List ℝ} (hn : 2 ≤ xs.length) :
    stdErrF xs = .fin (stdErr xs) := by
  have hlen2 : (2 : ℝ) ≤ (xs.length : ℝ) := by exact_mod_cast hn
  have hn1 : ((xs.length : ℝ) - 1) ≠ 0 := by linarith
  have hq : 0 ≤ sqDevSum xs / ((xs.length : ℝ) - 1) :=
    div_nonneg (sqDevSum_nonneg xs) (by linarith)
  rw [stdErrF, sampleStdF, varF, FloatVal.div_fin_fin_of_ne hn1,
    FloatVal.sqrtv_fin_of_nonneg hq,
    FloatVal.sqrtv_fin_of_nonneg (by positivity : (0 : ℝ) ≤ (xs.length : ℝ)),
    FloatVal.div_fin_fin_of_ne (ne_of_gt (Real.sqrt_pos.mpr (by linarith))),
    stdErr, sampleStd]

/-- A non-degenerate sample has positive standard error. -/
theorem stdErr_pos_of_sqDevSum_pos {xs : List ℝ} (hn : 2 ≤ xs.length)
    (hsq : 0 < sqDevSum xs) : 0 < stdErr xs := by
  have hlen2 : (2 : ℝ) ≤ (xs.length : ℝ) := by exact_mod_cast hn
  rw [stdErr, sampleStd]
  exact div_pos (Real.sqrt_pos.mpr (div_pos hsq (by linarith)))
    (Real.sqrt_pos.mpr (by linarith))

/-- C9: the code performs no input validation and never raises an InvalidInput
error: out-of-contract inputs produce non-finite value pairs.  Every
one-element sample yields (nan, nan) — the Bessel-corrected standard deviation
is the 0/0 division — and confidence level 1.0 on any non-degenerate sample
(at least two elements, not all identical, so the standard error is positive)
yields (-infinity, +infinity). -/
theorem c9_out_of_contract_nonfinite (tq : ℕ → ℝ → ℝ) :
    (∀ x conf : ℝ, notebookCIF tq [x] conf = (.nan, .nan)) ∧
    (∀ xs : List ℝ, 2 ≤ xs.length → 0 < sqDevSum xs →
      notebookCIF tq xs 1.0 = (.ninf, .pinf)) := by
  refine ⟨fun x conf => notebookCIF_singleton tq x conf, fun xs hn hsq => ?_⟩
  have hsepos : 0 < stdErr xs := stdErr_pos_of_sqDevSum_pos hn hsq
  have hdf : ¬(xs.length - 1 = 0) := by omega
  have hlo : tppfF tq (xs.length - 1) ((1 - 1.0) / 2) = .ninf := by
    rw [tppfF, if_neg hdf, if_neg (by norm_num), if_pos (by norm_num)]
  have hhi : tppfF tq (xs.length - 1) ((1 + 1.0) / 2) = .pinf := by
    rw [tppfF, if_neg hdf, if_neg (by norm_num), if_neg (by norm_num),
      if_pos (by norm_num)]
  rw [notebookCIF, stdErrF_eq_fin hn, meanF_eq_fin hn, hlo, hhi,
    FloatVal.mul_fin_ninf_of_pos hsepos, FloatVal.mul_fin_pinf_of_pos hsepos]
  rfl

/-- Witness for C9 at the one-element sample [7.0] with confidence 0.95, and
at the notebook's cholesterol sample with confidence 1.0. -/
theorem c9_witness :
    notebookCIF (fun _ _ => 0) [7] 0.95 = (.nan, .nan) ∧
    notebookCIF (fun _ _ => 0) sampleCholLevels 1.0 = (.ninf, .pinf) :=
  ⟨(c9_out_of_contract_nonfinite (fun _ _ => 0)).1 7 0.95,
   (c9_out_of_contract_nonfinite (fun _ _ => 0)).2 sampleCholLevels
     (by rw [sampleCholLevels_length]; norm_num)
     (by rw [sqDevSum_sampleCholLevels]; norm_num)⟩

theorem sampleStd_sampleCholLevels_eq :
    sampleStd sampleCholLevels = Real.sqrt (7010.95 / 19) := by
  rw [sampleStd, sqDevSum_sampleCholLevels, sampleCholLevels_length]
  congr 1
  norm_num

theorem stdErr_sampleCholLevels_eq :
    stdErr sampleCholLevels = Real.sqrt (7010.95 / 380) := by
  rw [stdErr, sampleStd_sampleCholLevels_eq, sampleCholLevels_length,
    ← Real.sqrt_div (by norm_num : (0 : ℝ) ≤ 7010.95 / 19)]
  congr 1
  norm_num

theorem sampleStd_sampleCholLevels_bounds :
    19.2093 < sampleStd sampleCholLevels ∧ sampleStd sampleCholLevels < 19.2094 := by
  rw [sampleStd_sampleCholLevels_eq]
  exact ⟨(Real.lt_sqrt (by norm_num)).mpr (by norm_num),
         (Real.sqrt_lt' (by norm_num)).mpr (by norm_num)⟩

theorem stdErr_sampleCholLevels_bounds :
    4.29533 < stdErr sampleCholLevels ∧ stdErr sampleCholLevels < 4.29534 := by
  rw [stdErr_sampleCholLevels_eq]
  exact ⟨(Real.lt_sqrt (by norm_num)).mpr (by norm_num),
         (Real.sqrt_lt' (by norm_num)).mpr (by norm_num)⟩

/-- C3: the spec's concrete scenario 1.  On the fixed cholesterol sample at
confidence level 0.95 the computation yields mean exactly 62.45, sample
standard deviation within 0.0001 of 19.2093, standard error within 0.0001 of
4.2953, and interval endpoints within 0.001 of (53.46, 71.44) — under the
reference-table bounds the spec instructs implementers to verify for the
t quantile at df = 19 (t at 0.975 is about 2.093, and its negative at 0.025). -/
theorem c3_cholesterol_scenario (tq : ℕ → ℝ → ℝ)
    (hhi1 : 2.093 ≤ tq 19 ((1 + 0.95) / 2)) (hhi2 : tq 19 ((1 + 0.95) / 2) ≤ 2.0931)
    (hlo1 : -2.0931 ≤ tq 19 ((1 - 0.95) / 2)) (hlo2 : tq 19 ((1 - 0.95) / 2) ≤ -2.093) :
    mean sampleCholLevels = 62.45 ∧
    |sampleStd sampleCholLevels - 19.2093| < 0.0001 ∧
    |stdErr sampleCholLevels - 4.2953| < 0.0001 ∧
    |(notebookCI tq sampleCholLevels 0.95).1 - 53.46| < 0.001 ∧
    |(notebookCI tq sampleCholLevels 0.95).2 - 71.44| < 0.001 := by
  have hstd := sampleStd_sampleCholLevels_bounds
  have hse := stdErr_sampleCholLevels_bounds
  have hpair : (notebookCI tq sampleCholLevels 0.95).1
        = 62.45 + stdErr sampleCholLevels * tq 19 ((1 - 0.95) / 2)
      ∧ (notebookCI tq sampleCholLevels 0.95).2
        = 62.45 + stdErr sampleCholLevels * tq 19 ((1 + 0.95) / 2) := by
    rw [notebookCI, tIntervalSci, mean_sampleCholLevels, sampleCholLevels_length]
    exact ⟨rfl, rfl⟩
  refine ⟨mean_sampleCholLevels, ?_, ?_, ?_, ?_⟩
  · rw [abs_lt]
    constructor <;> linarith [hstd.1, hstd.2]
  · rw [abs_lt]
    constructor <;> linarith [hse.1, hse.2]
  · rw [hpair.1, abs_lt]
    constructor <;> nlinarith [hse.1, hse.2, hlo1, hlo2]
  · rw [hpair.2, abs_lt]
    constructor <;> nlinarith [hse.1, hse.2, hhi1, hhi2]

/-- Witness for C3 with a concrete quantile function meeting the
reference-table bounds at df = 19. -/
theorem c3_witness :
    mean sampleCholLevels = 62.45 ∧
    |sampleStd sampleCholLevels - 19.2093| < 0.0001 ∧
    |stdErr sampleCholLevels - 4.2953| < 0.0001 ∧
    |(notebookCI (fun _ p => if p ≤ 1 / 2 then -2.09302 else 2.09302)
        sampleCholLevels 0.95).1 - 53.46| < 0.001 ∧
    |(notebookCI (fun _ p => if p ≤ 1 / 2 then -2.09302 else 2.09302)
        sampleCholLevels 0.95).2 - 71.44| < 0.001 :=
  c3_cholesterol_scenario (fun _ p => if p ≤ 1 / 2 then -2.09302 else 2.09302)
    (by show (2.093 : ℝ) ≤ if ((1 + 0.95 : ℝ) / 2) ≤ 1 / 2 then -2.09302 else 2.09302
        rw [if_neg (by norm_num)]
        norm_num)
    (by show (if ((1 + 0.95 : ℝ) / 2) ≤ 1 / 2 then -2.09302 else 2.09302) ≤ 2.0931
        rw [if_neg (by norm_num)]
        norm_num)
    (by show (-2.0931 : ℝ) ≤ if ((1 - 0.95 : ℝ) / 2) ≤ 1 / 2 then -2.09302 else 2.09302
        rw [if_pos (by norm_num)]
        norm_num)
    (by show (if ((1 - 0.95 : ℝ) / 2) ≤ 1 / 2 then -2.09302 else 2.09302) ≤ -2.093
        rw [if_pos (by norm_num)]
        norm_num)

end

end TDistCI
